import Mathlib

/-!
Shallow embedding of the CV ↔ Job-Description keyword matcher
(`src/match.py`) and proofs about its core pipeline:
tokenizer, phrase matcher, gap analyzer/scorer, suggestion generator
and the `main` wiring.

Python floats only ever hold values of the form `freq * 1.5` or
`freq * 1.0` here, which are exact in binary floating point, so scores
are embedded as rationals.  Python's `Counter` built from a list of
terms is embedded as the list itself (a key is present iff its count is
positive); `Counter.get(t, 1)` becomes `counterGet`.  Python sets are
embedded as `Finset String`, and where `main` iterates a set we pass an
explicit iteration-order list and prove the results do not depend on it.
-/

namespace CVMatch

/-! Character classes of the simple tokenizer (src/match.py lines 63-70)

The regex (letter, then two or more continuation characters) means a token starts with an
ASCII letter and continues with letters, digits, hyphen, slash, plus,
underscore or dot, with at least two continuation characters. -/

/-- Class `[A-Za-z]` of the tokenizer regex. -/
def isAsciiLetter (c : Char) : Bool :=
  ('A' ≤ c && c ≤ 'Z') || ('a' ≤ c && c ≤ 'z')

/-- The continuation class of the tokenizer regex: letters, digits, hyphen, slash, plus, underscore, dot. -/
def isCont (c : Char) : Bool :=
  isAsciiLetter c || ('0' ≤ c && c ≤ '9') ||
    c = '-' || c = '/' || c = '+' || c = '_' || c = '.'

/-- The characters stripped from token ends by stripping the dot, underscore, hyphen, plus and slash characters. -/
def isPuncLike (c : Char) : Bool :=
  c = '.' || c = '_' || c = '-' || c = '+' || c = '/'

/-- The `re.findall` call of `tokenize_simple`: scan left to
right; at a letter, greedily take the maximal run of continuation
characters; the match succeeds iff that run has length at least 2, and
scanning resumes right after the match. -/
def scan : List Char → List (List Char)
  | [] => []
  | c :: rest =>
    if isAsciiLetter c then
      if 2 ≤ (rest.takeWhile isCont).length then
        (c :: rest.takeWhile isCont) :: scan (rest.dropWhile isCont)
      else scan rest
    else scan rest
termination_by l => l.length
decreasing_by
  · exact Nat.lt_succ_of_le (List.dropWhile_sublist _).length_le
  · exact Nat.lt_succ_self _
  · exact Nat.lt_succ_self _

/-- Python's `t.strip(chars)`: remove leading and trailing characters
from the given class (here applied with `isPuncLike`). -/
def stripBoth (p : Char → Bool) (l : List Char) : List Char :=
  ((l.dropWhile p).reverse.dropWhile p).reverse

/-- Constant `MIN_LEN = 3` (src/match.py line 33). -/
def MIN_LEN : Nat := 3

/-- Embedding of `tokenize_simple` (src/match.py lines 63-70): regex findall,
lowercase, strip punctuation-like characters from both ends, keep tokens of length
`≥ MIN_LEN` that are not stop-words.  `STOP_WORDS` is the module-level
set (empty unless spaCy's stop-word list was importable), passed here
as the `stop` parameter. -/
def tokenize_simple (stop : List String) (text : String) : List String :=
  ((scan text.data).map
      (fun w => String.mk (stripBoth isPuncLike (w.map Char.toLower)))).filter
    (fun t => decide (MIN_LEN ≤ t.length) && !(stop.contains t))

/-! Phrase matcher (src/match.py lines 93-103) -/

/-- Whether `needle` starts `hay` (character-wise). -/
def startsB : List Char → List Char → Bool
  | [], _ => true
  | _ :: _, [] => false
  | a :: as_, b :: bs => a = b && startsB as_ bs

/-- Python's `needle in hay` on strings: contiguous-substring test. -/
def subB (needle : List Char) : List Char → Bool
  | [] => needle.isEmpty
  | b :: bs => startsB needle (b :: bs) || subB needle bs

/-- Python's `str.lower()` restricted to the basic-latin lowering that
`Char.toLower` performs. -/
def lowerStr (s : String) : String := String.mk (s.data.map Char.toLower)

/-- Python's `p.strip()` (whitespace from both ends). -/
def trimStr (s : String) : String := String.mk (stripBoth Char.isWhitespace s.data)

/-- Normalization `p.strip().lower()` applied to a phrase in `find_phrases`. -/
def normPhrase (p : String) : String := lowerStr (trimStr p)

/-- Substring test between the normalized phrase and the lowercased text,
`p_norm in text_l`. -/
def substrB (needle hay : String) : Bool := subB needle.data hay.data

/-- Embedding of `find_phrases` (src/match.py lines 93-103): fold over the phrase
list, adding `p.strip().lower()` to the result set when it is nonempty
and occurs in `text.lower()`. -/
def find_phrases (text : String) (phrases : List String) : Finset String :=
  phrases.foldl
    (fun found p =>
      let pn := normPhrase p
      if pn = "" then found
      else if substrB pn (lowerStr text) then insert pn found else found)
    ∅

/-! Gap analyzer and scorer (src/match.py lines 106-128) -/

/-- Embedding of `compute_overlap_and_gaps` (src/match.py lines 106-109). -/
def compute_overlap_and_gaps (cv_terms jd_terms : Finset String) :
    Finset String × Finset String :=
  (cv_terms ∩ jd_terms, jd_terms \ cv_terms)

/-- Lookup `jd_counts.get(term, 1)` where the counter was built from the list
`counts`: the stored count if the key is present, else 1. -/
def counterGet (counts : List String) (t : String) : Nat :=
  if t ∈ counts then counts.count t else 1

/-- The scored triple `(term, freq * bonus, freq)` built in the loop of
`score_terms` (src/match.py lines 123-126). -/
def mkScored (jd_counts : List String) (phrase_hits : Finset String)
    (phrase_bonus : ℚ) (t : String) : String × ℚ × Nat :=
  let freq := counterGet jd_counts t
  let bonus : ℚ := if t ∈ phrase_hits then phrase_bonus else 1
  (t, (freq : ℚ) * bonus, freq)

/-- The ascending order on the Python sort key
`(-score, -freq, term)` (src/match.py line 127): higher score first,
then higher frequency, then lexicographically smaller term. -/
def gapLe (x y : String × ℚ × Nat) : Prop :=
  y.2.1 < x.2.1 ∨ (x.2.1 = y.2.1 ∧
    (y.2.2 < x.2.2 ∨ (x.2.2 = y.2.2 ∧ x.1 ≤ y.1)))

instance : DecidableRel gapLe := fun x y => by
  unfold gapLe; infer_instance

/-- Embedding of `score_terms` (src/match.py lines 112-128).  The Python code
iterates the `gaps` set in some order and then sorts with a stable sort
on the key `(-score, -freq, term)`; the key determines the element, so
any stable sort yields the same list.  The set's iteration order is the
`gaps` list parameter; order-independence is proved below. -/
def score_terms (gaps : List String) (jd_counts : List String)
    (phrase_hits : Finset String) (phrase_bonus : ℚ) :
    List (String × ℚ × Nat) :=
  List.insertionSort gapLe (gaps.map (mkScored jd_counts phrase_hits phrase_bonus))

/-- The ascending order on the Python sort key `(-x[1], x[0])` used for
the overlap display (src/match.py line 274): higher job-description
frequency first, ties broken lexicographically by term. -/
def ovLe (x y : String × Nat) : Prop :=
  y.2 < x.2 ∨ (x.2 = y.2 ∧ x.1 ≤ y.1)

instance : DecidableRel ovLe := fun x y => by
  unfold ovLe; infer_instance

/-- The overlap display list built in `main` (src/match.py line 274):
`sorted(((t, jd_counts[t]) for t in overlap), key=lambda x: (-x[1], x[0]))`.
The `ov` parameter is the iteration order of the `overlap` set;
`jd_counts[t]` is the count of `t` in the job-description term list. -/
def sort_overlap (ov : List String) (jd_counts : List String) :
    List (String × Nat) :=
  List.insertionSort ovLe (ov.map (fun t => (t, jd_counts.count t)))

/-! Suggestion generator (src/match.py lines 225-235) -/

/-- The four sentence templates of `suggest_bullets`, indexed; the code
selects `templates[len(bullets) % len(templates)]` and the caller only
passes indices below 4, so the last template is the catch-all case. -/
def applyTemplate : Nat → String → String
  | 0, t => "Built a small demo using " ++ t ++ " and documented setup & outcomes."
  | 1, t => "Practiced " ++ t ++ " by implementing a mini project and writing tests."
  | 2, t => "Used " ++ t ++ " to solve a real task (data cleaning, API, or CLI) and published code."
  | _, t => "Created a short tutorial README explaining how to apply " ++ t ++ "."

/-- The loop of `suggest_bullets`: `i` is `len(bullets)` so far; each
iteration appends `templates[i % 4].format(term=t)`. -/
def bulletsAux : Nat → List String → List String
  | _, [] => []
  | i, t :: ts => applyTemplate (i % 4) t :: bulletsAux (i + 1) ts

/-- Embedding of `suggest_bullets` (src/match.py lines 225-235): one templated
sentence per term of `missing_terms[:max_bullets]`, cycling the four
templates. -/
def suggest_bullets (missing_terms : List String) (max_bullets : Nat) :
    List String :=
  bulletsAux 0 (missing_terms.take max_bullets)

/-! The full pipeline of `main` (src/match.py lines 238-301)

`extract_terms` falls back to `tokenize_simple` when the spaCy model is
unavailable (src/match.py lines 73-90); the embedding models that
fallback branch.  Python `set` iteration order is not observable in the
output because every set is sorted before display; the pipeline record
below fixes one canonical iteration order (first appearance in the
job-description term list) and the order-independence theorems show any
other order gives the same lists. -/

/-- Embedding of `extract_terms` in the simple-tokenizer fallback branch. -/
def extract_terms (stop : List String) (text : String) : List String :=
  tokenize_simple stop text

/-- All intermediate values of one `main` run that the claims mention. -/
structure RunResult where
  cv_terms : Finset String
  jd_terms : Finset String
  cv_phrase_hits : Finset String
  jd_phrase_hits : Finset String
  overlap : Finset String
  gaps : Finset String
  overlap_sorted : List (String × Nat)
  gaps_scored_all : List (String × ℚ × Nat)
  gaps_scored : List (String × ℚ × Nat)
  overlap_sorted_top : List (String × Nat)
  html_gaps : List (String × ℚ × Nat)
  html_overlap : List (String × Nat)
  bullets_input : List String
  bullets : List String

/-- The canonical iteration order used for the `overlap` set: the
job-description terms in order of first appearance, restricted to those
also on the CV. -/
def overlapIter (cv_terms_list jd_terms_list : List String) : List String :=
  jd_terms_list.dedup.filter (fun t => decide (t ∈ cv_terms_list))

/-- The canonical iteration order used for the `gaps` set. -/
def gapsIter (cv_terms_list jd_terms_list : List String) : List String :=
  jd_terms_list.dedup.filter (fun t => decide (t ∉ cv_terms_list))

/-- Embedding of `main` (src/match.py lines 249-289), from the two input texts, the
effective phrase list, the stop-word set and the `--top` count to every
value the renderers and the suggestion generator consume.
`gaps_scored`/`overlap_sorted_top` are the truncated CLI lists;
`html_gaps`/`html_overlap` are the arguments passed to
`make_html_report`; `bullets_input` is `missing_terms_ranked`. -/
def pipeline (cv_text jd_text : String) (stop phrases : List String)
    (top : Nat) : RunResult :=
  let cv_terms_list := extract_terms stop cv_text
  let jd_terms_list := extract_terms stop jd_text
  let cv_terms := cv_terms_list.toFinset
  let jd_terms := jd_terms_list.toFinset
  let cv_phrase_hits := find_phrases cv_text phrases
  let jd_phrase_hits := find_phrases jd_text phrases
  let og := compute_overlap_and_gaps cv_terms jd_terms
  let overlap_sorted :=
    sort_overlap (overlapIter cv_terms_list jd_terms_list) jd_terms_list
  let gaps_scored_all :=
    score_terms (gapsIter cv_terms_list jd_terms_list) jd_terms_list
      jd_phrase_hits (3/2)
  let gaps_scored := gaps_scored_all.take top
  let overlap_sorted_top := overlap_sorted.take top
  let bullets_input := gaps_scored_all.map (fun x => x.1)
  { cv_terms := cv_terms
    jd_terms := jd_terms
    cv_phrase_hits := cv_phrase_hits
    jd_phrase_hits := jd_phrase_hits
    overlap := og.1
    gaps := og.2
    overlap_sorted := overlap_sorted
    gaps_scored_all := gaps_scored_all
    gaps_scored := gaps_scored
    overlap_sorted_top := overlap_sorted_top
    html_gaps := gaps_scored_all
    html_overlap := overlap_sorted
    bullets_input := bullets_input
    bullets := suggest_bullets bullets_input 10 }

/-! Helper lemmas about the sorting steps -/

theorem gapLe_total : ∀ x y, gapLe x y ∨ gapLe y x := by
  intro x y
  unfold gapLe
  rcases lt_trichotomy x.2.1 y.2.1 with h | h | h
  · right; exact Or.inl h
  · rcases lt_trichotomy x.2.2 y.2.2 with h2 | h2 | h2
    · right; exact Or.inr ⟨h.symm, Or.inl h2⟩
    · rcases le_total x.1 y.1 with h3 | h3
      · left; exact Or.inr ⟨h, Or.inr ⟨h2, h3⟩⟩
      · right; exact Or.inr ⟨h.symm, Or.inr ⟨h2.symm, h3⟩⟩
    · left; exact Or.inr ⟨h, Or.inl h2⟩
  · left; exact Or.inl h

theorem gapLe_trans : ∀ x y z, gapLe x y → gapLe y z → gapLe x z := by
  intro x y z h1 h2
  unfold gapLe at h1 h2 ⊢
  rcases h1 with h1 | ⟨e1, h1⟩
  · rcases h2 with h2 | ⟨e2, _⟩
    · exact Or.inl (lt_trans h2 h1)
    · exact Or.inl (e2 ▸ h1)
  · rcases h2 with h2 | ⟨e2, h2⟩
    · exact Or.inl (e1 ▸ h2)
    · rcases h1 with h1 | ⟨f1, h1⟩
      · rcases h2 with h2 | ⟨f2, _⟩
        · exact Or.inr ⟨e1.trans e2, Or.inl (lt_trans h2 h1)⟩
        · exact Or.inr ⟨e1.trans e2, Or.inl (f2 ▸ h1)⟩
      · rcases h2 with h2 | ⟨f2, h2⟩
        · exact Or.inr ⟨e1.trans e2, Or.inl (f1 ▸ h2)⟩
        · exact Or.inr ⟨e1.trans e2, Or.inr ⟨f1.trans f2, le_trans h1 h2⟩⟩

theorem gapLe_antisymm : ∀ x y, gapLe x y → gapLe y x → x = y := by
  intro x y h1 h2
  unfold gapLe at h1 h2
  rcases h1 with h1 | ⟨e1, h1⟩
  · rcases h2 with h2 | ⟨e2, _⟩
    · exact absurd (lt_trans h1 h2) (lt_irrefl _)
    · exact absurd h1 (e2 ▸ lt_irrefl _)
  · rcases h2 with h2 | ⟨_, h2⟩
    · exact absurd h2 (e1 ▸ lt_irrefl _)
    · rcases h1 with h1 | ⟨f1, h1⟩
      · rcases h2 with h2 | ⟨f2, _⟩
        · exact absurd (lt_trans h1 h2) (lt_irrefl _)
        · exact absurd h1 (f2 ▸ lt_irrefl _)
      · rcases h2 with h2 | ⟨_, h2⟩
        · exact absurd h2 (f1 ▸ lt_irrefl _)
        · have ht : x.1 = y.1 := le_antisymm h1 h2
          have h22 : x.2 = y.2 := Prod.ext e1 f1
          exact Prod.ext ht h22

instance : IsTotal (String × ℚ × Nat) gapLe := ⟨gapLe_total⟩
instance : IsTrans (String × ℚ × Nat) gapLe := ⟨gapLe_trans⟩
instance : IsAntisymm (String × ℚ × Nat) gapLe := ⟨gapLe_antisymm⟩

theorem ovLe_total : ∀ x y, ovLe x y ∨ ovLe y x := by
  intro x y
  unfold ovLe
  rcases lt_trichotomy x.2 y.2 with h | h | h
  · right; exact Or.inl h
  · rcases le_total x.1 y.1 with h3 | h3
    · left; exact Or.inr ⟨h, h3⟩
    · right; exact Or.inr ⟨h.symm, h3⟩
  · left; exact Or.inl h

theorem ovLe_trans : ∀ x y z, ovLe x y → ovLe y z → ovLe x z := by
  intro x y z h1 h2
  unfold ovLe at h1 h2 ⊢
  rcases h1 with h1 | ⟨e1, h1⟩
  · rcases h2 with h2 | ⟨e2, _⟩
    · exact Or.inl (lt_trans h2 h1)
    · exact Or.inl (e2 ▸ h1)
  · rcases h2 with h2 | ⟨e2, h2⟩
    · exact Or.inl (e1 ▸ h2)
    · exact Or.inr ⟨e1.trans e2, le_trans h1 h2⟩

theorem ovLe_antisymm : ∀ x y, ovLe x y → ovLe y x → x = y := by
  intro x y h1 h2
  unfold ovLe at h1 h2
  rcases h1 with h1 | ⟨e1, h1⟩
  · rcases h2 with h2 | ⟨e2, _⟩
    · exact absurd (lt_trans h1 h2) (lt_irrefl _)
    · exact absurd h1 (e2 ▸ lt_irrefl _)
  · rcases h2 with h2 | ⟨_, h2⟩
    · exact absurd h2 (e1 ▸ lt_irrefl _)
    · exact Prod.ext (le_antisymm h1 h2) e1

instance : IsTotal (String × Nat) ovLe := ⟨ovLe_total⟩
instance : IsTrans (String × Nat) ovLe := ⟨ovLe_trans⟩
instance : IsAntisymm (String × Nat) ovLe := ⟨ovLe_antisymm⟩


theorem score_terms_perm_eq (g1 g2 jd_counts : List String)
    (phrase_hits : Finset String) (phrase_bonus : ℚ) (h : g1.Perm g2) :
    score_terms g1 jd_counts phrase_hits phrase_bonus =
      score_terms g2 jd_counts phrase_hits phrase_bonus := by
  exact @List.eq_of_perm_of_sorted _ gapLe _ _ _
    (((List.perm_insertionSort _ _).trans (h.map _)).trans
      (List.perm_insertionSort _ _).symm)
    (List.sorted_insertionSort _ _) (List.sorted_insertionSort _ _)

theorem sort_overlap_perm_eq (o1 o2 jd_counts : List String)
    (h : o1.Perm o2) :
    sort_overlap o1 jd_counts = sort_overlap o2 jd_counts := by
  exact @List.eq_of_perm_of_sorted _ ovLe _ _ _
    (((List.perm_insertionSort _ _).trans (h.map _)).trans
      (List.perm_insertionSort _ _).symm)
    (List.sorted_insertionSort _ _) (List.sorted_insertionSort _ _)

theorem bulletsAux_length (j : Nat) (l : List String) :
    (bulletsAux j l).length = l.length := by
  induction l generalizing j with
  | nil => rfl
  | cons t ts ih => simp [bulletsAux, ih]

theorem bulletsAux_getElem? (l : List String) (j i : Nat) :
    (bulletsAux j l)[i]? = l[i]?.map (applyTemplate ((j + i) % 4)) := by
  induction l generalizing j i with
  | nil => simp [bulletsAux]
  | cons t ts ih =>
    cases i with
    | zero => simp [bulletsAux]
    | succ n =>
      have h1 := ih (j + 1) n
      have h2 : j + 1 + n = j + (n + 1) := by omega
      rw [h2] at h1
      simpa [bulletsAux] using h1

theorem cont_of_letter {c : Char} (h : isAsciiLetter c = true) :
    isCont c = true := by
  simp [isCont, h]

theorem dropWhile_head_false {α : Type} (p : α → Bool) :
    ∀ (l : List α) (e : α) (x : List α), l.dropWhile p = e :: x →
      p e = false := by
  intro l
  induction l with
  | nil => intro e x h; simp [List.dropWhile] at h
  | cons a as ihl =>
    intro e x h
    by_cases ha : p a = true
    · rw [List.dropWhile_cons_of_pos ha] at h
      exact ihl e x h
    · rw [List.dropWhile_cons_of_neg (by simpa using ha)] at h
      cases h
      simpa using ha

/-- Every element of `scan l` is a regex match of
`[A-Za-z][A-Za-z0-9 continuation]{2,}` occurring in `l`: it starts with
a letter and continues with at least two continuation characters, the
character following it (if any) is not a continuation character
(right-maximality), and no earlier letter could start a match covering
it (left-maximality). -/
theorem scan_spec :
    ∀ (n : Nat) (l : List Char), l.length ≤ n → ∀ w ∈ scan l,
    ∃ pre post, l = pre ++ w ++ post ∧
      (∃ c cs, w = c :: cs ∧ isAsciiLetter c = true ∧ cs.all isCont = true ∧
        2 ≤ cs.length) ∧
      (∀ d ds, post = d :: ds → isCont d = false) ∧
      (∀ pre₁ d r, pre = pre₁ ++ d :: r →
        isAsciiLetter d = true → r.all isCont = true → False) := by
  intro n
  induction n with
  | zero =>
    intro l hl w hw
    have hnil : l = [] := List.eq_nil_of_length_eq_zero (Nat.le_zero.mp hl)
    subst hnil
    rw [scan] at hw
    exact absurd hw (List.not_mem_nil w)
  | succ n ih =>
    intro l hl w hw
    cases l with
    | nil =>
      rw [scan] at hw
      exact absurd hw (List.not_mem_nil w)
    | cons c rest =>
      have hrest : rest.length ≤ n := by simpa using hl
      by_cases hc : isAsciiLetter c = true
      · by_cases h2 : 2 ≤ (rest.takeWhile isCont).length
        · rw [scan, if_pos hc, if_pos h2] at hw
          obtain ⟨tW, htW⟩ : ∃ tW, rest.takeWhile isCont = tW := ⟨_, rfl⟩
          obtain ⟨rs, hrs⟩ : ∃ rs, rest.dropWhile isCont = rs := ⟨_, rfl⟩
          rw [htW, hrs] at hw
          rw [htW] at h2
          have hsplit : tW ++ rs = rest := by
            rw [← htW, ← hrs]; exact List.takeWhile_append_dropWhile _ _
          have hallW : tW.all isCont = true := by
            rw [← htW]; exact List.all_takeWhile
          have hrshead : ∀ e x, rs = e :: x → isCont e = false := by
            intro e x h
            exact dropWhile_head_false isCont rest e x (by rw [hrs, h])
          rcases List.mem_cons.mp hw with rfl | hw'
          · refine ⟨[], rs, ?_, ⟨c, tW, rfl, hc, hallW, h2⟩, hrshead, ?_⟩
            · rw [← hsplit]; simp
            · intro pre₁ d r h
              exact absurd h.symm (by simp)
          · have hlen' : rs.length ≤ n := by
              rw [← hrs]
              exact le_trans (List.dropWhile_sublist _).length_le hrest
            obtain ⟨pre', post', heq, hform, hrmax, hlmax⟩ :=
              ih rs hlen' w hw'
            obtain ⟨c₀, cs, hw0, hc₀, hcsall, hcslen⟩ := hform
            have hpre' : (pre' = [] → False) ∧
                (∀ e pre'', pre' = e :: pre'' → isCont e = false) := by
              constructor
              · intro hnil
                subst hnil
                have : rs = c₀ :: (cs ++ post') := by
                  rw [heq, hw0]; simp
                exact absurd (cont_of_letter hc₀)
                  (by rw [hrshead c₀ (cs ++ post') this]; simp)
              · intro e pre'' hepre
                apply hrshead e (pre'' ++ w ++ post')
                rw [heq, hepre]; simp
            refine ⟨c :: (tW ++ pre'), post', ?_,
              ⟨c₀, cs, hw0, hc₀, hcsall, hcslen⟩, hrmax, ?_⟩
            · rw [← hsplit, heq]; simp
            · intro pre₁ d r h hd hr
              cases pre₁ with
              | nil =>
                have hdc : d = c := by
                  have := congrArg (fun t => t.head?) h
                  simpa using this.symm
                have hrval : r = tW ++ pre' := by
                  have := congrArg (fun t => t.tail) h
                  simpa using this.symm
                cases hp : pre' with
                | nil => exact hpre'.1 hp
                | cons e pre'' =>
                  have hecont : isCont e = true := by
                    rw [List.all_eq_true] at hr
                    apply hr
                    rw [hrval, hp]
                    exact List.mem_append_right _ (List.mem_cons_self _ _)
                  rw [hpre'.2 e pre'' hp] at hecont
                  exact absurd hecont (by simp)
              | cons a pre₁' =>
                have hca : c = a := by
                  have := congrArg (fun t => t.head?) h
                  simpa using this
                have htail : tW ++ pre' = pre₁' ++ (d :: r) := by
                  have := congrArg (fun t => t.tail) h
                  simpa using this
                rcases List.append_eq_append_iff.mp htail with
                  ⟨a', _, ha2⟩ | ⟨c', _, hc2⟩
                · exact hlmax a' d r ha2 hd hr
                · cases c' with
                  | nil =>
                    exact hlmax [] d r (by simpa using hc2.symm) hd hr
                  | cons x a'' =>
                    have hrx : r = a'' ++ pre' := by
                      have := congrArg (fun t => t.tail) hc2
                      simpa using this
                    cases hp : pre' with
                    | nil => exact hpre'.1 hp
                    | cons e pre'' =>
                      have hecont : isCont e = true := by
                        rw [List.all_eq_true] at hr
                        apply hr
                        rw [hrx, hp]
                        exact List.mem_append_right _ (List.mem_cons_self _ _)
                      rw [hpre'.2 e pre'' hp] at hecont
                      exact absurd hecont (by simp)
        · rw [scan, if_pos hc, if_neg h2] at hw
          obtain ⟨pre', post', heq, hform, hrmax, hlmax⟩ :=
            ih rest hrest w hw
          obtain ⟨c₀, cs, hw0, hc₀, hcsall, hcslen⟩ := hform
          refine ⟨c :: pre', post', by rw [heq]; simp,
            ⟨c₀, cs, hw0, hc₀, hcsall, hcslen⟩, hrmax, ?_⟩
          intro pre₁ d r h hd hr
          cases pre₁ with
          | nil =>
            have hdc : d = c := by
              have := congrArg (fun t => t.head?) h
              simpa using this.symm
            have hrval : r = pre' := by
              have := congrArg (fun t => t.tail) h
              simpa using this.symm
            -- every character of `pre'` and of `w` is a continuation
            -- character, so `rest.takeWhile isCont` is at least as long
            -- as `pre' ++ w`, contradicting the failed length test
            have hwall : w.all isCont = true := by
              rw [hw0, List.all_cons, hcsall]
              simp [cont_of_letter hc₀]
            have hall : ∀ x ∈ pre' ++ w, isCont x = true := by
              intro x hx
              rcases List.mem_append.mp hx with hx | hx
              · rw [List.all_eq_true] at hr
                exact hr x (hrval ▸ hx)
              · rw [List.all_eq_true] at hwall
                exact hwall x hx
            have htk : rest.takeWhile isCont =
                (pre' ++ w) ++ (post'.takeWhile isCont) := by
              rw [heq, List.append_assoc, ← List.append_assoc pre' w post']
              exact List.takeWhile_append_of_pos hall
            have hlen3 : 3 ≤ pre'.length + w.length := by
              rw [hw0]
              simp only [List.length_cons]
              omega
            apply h2
            rw [htk]
            simp only [List.length_append]
            omega
          | cons a pre₁' =>
            have htail : pre' = pre₁' ++ (d :: r) := by
              have := congrArg (fun t => t.tail) h
              simpa using this
            exact hlmax pre₁' d r htail hd hr
      · rw [scan, if_neg hc] at hw
        obtain ⟨pre', post', heq, hform, hrmax, hlmax⟩ :=
          ih rest hrest w hw
        refine ⟨c :: pre', post', by rw [heq]; simp, hform, hrmax, ?_⟩
        intro pre₁ d r h hd hr
        cases pre₁ with
        | nil =>
          have hdc : d = c := by
            have := congrArg (fun t => t.head?) h
            simpa using this.symm
          rw [hdc] at hd
          exact absurd hd hc
        | cons a pre₁' =>
          have htail : pre' = pre₁' ++ (d :: r) := by
            have := congrArg (fun t => t.tail) h
            simpa using this
          exact hlmax pre₁' d r htail hd hr

theorem isUpper_toLower (c : Char) : (Char.toLower c).isUpper = false := by
  unfold Char.toLower
  show (if c.toNat ≥ 65 ∧ c.toNat ≤ 90 then Char.ofNat (c.toNat + 32)
    else c).isUpper = false
  split
  case isTrue h =>
    obtain ⟨h1, h2⟩ := h
    have hv : (Char.toNat c + 32).isValidChar := Or.inl (by omega)
    rw [Char.ofNat, dif_pos hv]
    unfold Char.isUpper
    rw [Bool.and_eq_false_iff]
    right
    rw [decide_eq_false_iff_not]
    intro hle
    rw [UInt32.le_def, BitVec.le_def] at hle
    have h90 : ((90 : UInt32)).toBitVec.toNat = 90 := by decide
    rw [h90] at hle
    have hv' : (Char.ofNatAux (Char.toNat c + 32) hv).val.toBitVec.toNat =
        Char.toNat c + 32 := by
      unfold Char.ofNatAux
      simp
    omega
  case isFalse h =>
    unfold Char.isUpper
    rw [Bool.and_eq_false_iff]
    have hcn : c.val.toBitVec.toNat = Char.toNat c := rfl
    by_cases h65 : 65 ≤ Char.toNat c
    · right
      rw [decide_eq_false_iff_not]
      intro hle
      rw [UInt32.le_def, BitVec.le_def] at hle
      have h90 : ((90 : UInt32)).toBitVec.toNat = 90 := by decide
      rw [h90, hcn] at hle
      exact h ⟨h65, hle⟩
    · left
      rw [decide_eq_false_iff_not]
      intro hge
      rw [ge_iff_le, UInt32.le_def, BitVec.le_def] at hge
      have h65' : ((65 : UInt32)).toBitVec.toNat = 65 := by decide
      rw [h65', hcn] at hge
      exact h65 hge

theorem mem_stripBoth {p : Char → Bool} {l : List Char} {x : Char}
    (h : x ∈ stripBoth p l) : x ∈ l := by
  unfold stripBoth at h
  rw [List.mem_reverse] at h
  have h1 : x ∈ (l.dropWhile p).reverse := List.dropWhile_subset _ h
  rw [List.mem_reverse] at h1
  exact List.dropWhile_subset _ h1

theorem mem_find_phrases_foldl (text : String) (s : String) :
    ∀ (phrases : List String) (acc : Finset String),
    (s ∈ phrases.foldl
      (fun found p =>
        let pn := normPhrase p
        if pn = "" then found
        else if substrB pn (lowerStr text) then insert pn found else found)
      acc ↔
    s ∈ acc ∨ ((∃ p ∈ phrases, normPhrase p = s) ∧ s ≠ "" ∧
      substrB s (lowerStr text) = true)) := by
  intro phrases
  induction phrases with
  | nil => intro acc; simp
  | cons p ps ih =>
    intro acc
    rw [List.foldl_cons, ih]
    show (s ∈ (if normPhrase p = "" then acc
        else if substrB (normPhrase p) (lowerStr text) then
          insert (normPhrase p) acc else acc)) ∨ _ ↔ _
    by_cases h0 : normPhrase p = ""
    · rw [if_pos h0]
      constructor
      · rintro (h | ⟨⟨q, hq, he⟩, hne, hsub⟩)
        · exact Or.inl h
        · exact Or.inr ⟨⟨q, List.mem_cons_of_mem _ hq, he⟩, hne, hsub⟩
      · rintro (h | ⟨⟨q, hq, he⟩, hne, hsub⟩)
        · exact Or.inl h
        · rcases List.mem_cons.mp hq with rfl | hq'
          · exact absurd (h0.symm.trans he).symm hne
          · exact Or.inr ⟨⟨q, hq', he⟩, hne, hsub⟩
    · rw [if_neg h0]
      by_cases h1 : substrB (normPhrase p) (lowerStr text) = true
      · rw [if_pos h1]
        simp only [Finset.mem_insert]
        constructor
        · rintro ((rfl | h) | ⟨⟨q, hq, he⟩, hne, hsub⟩)
          · exact Or.inr ⟨⟨p, List.mem_cons_self _ _, rfl⟩, h0, h1⟩
          · exact Or.inl h
          · exact Or.inr ⟨⟨q, List.mem_cons_of_mem _ hq, he⟩, hne, hsub⟩
        · rintro (h | ⟨⟨q, hq, he⟩, hne, hsub⟩)
          · exact Or.inl (Or.inr h)
          · rcases List.mem_cons.mp hq with rfl | hq'
            · exact Or.inl (Or.inl he.symm)
            · exact Or.inr ⟨⟨q, hq', he⟩, hne, hsub⟩
      · rw [if_neg h1]
        constructor
        · rintro (h | ⟨⟨q, hq, he⟩, hne, hsub⟩)
          · exact Or.inl h
          · exact Or.inr ⟨⟨q, List.mem_cons_of_mem _ hq, he⟩, hne, hsub⟩
        · rintro (h | ⟨⟨q, hq, he⟩, hne, hsub⟩)
          · exact Or.inl h
          · rcases List.mem_cons.mp hq with rfl | hq'
            · exact absurd (he ▸ hsub) h1
            · exact Or.inr ⟨⟨q, hq', he⟩, hne, hsub⟩

/-! The claims -/

/-- C4: every term returned by the simple tokenizer is lowercased, has
length ≥ 3 after stripping trailing punctuation-like characters, is not
a stop-word, and arises from a maximal substring of the text that
starts with a letter and continues with letters, digits, hyphen, slash,
plus, underscore or dot (maximal: the match cannot be extended on
either side). -/
theorem tokenize_simple_spec (stop : List String) (text : String)
    (t : String) (ht : t ∈ tokenize_simple stop text) :
    (∀ c ∈ t.data, c.isUpper = false) ∧
    MIN_LEN ≤ t.length ∧
    t ∉ stop ∧
    ∃ pre w post, text.data = pre ++ w ++ post ∧
      (∃ c cs, w = c :: cs ∧ isAsciiLetter c = true ∧ cs.all isCont = true ∧
        2 ≤ cs.length) ∧
      (∀ d ds, post = d :: ds → isCont d = false) ∧
      (∀ pre₁ d r, pre = pre₁ ++ d :: r → isAsciiLetter d = true →
        r.all isCont = true → False) ∧
      t = String.mk (stripBoth isPuncLike (w.map Char.toLower)) := by
  unfold tokenize_simple at ht
  rw [List.mem_filter] at ht
  obtain ⟨hmem, hcond⟩ := ht
  rw [List.mem_map] at hmem
  obtain ⟨w, hw, hteq⟩ := hmem
  subst hteq
  obtain ⟨pre, post, heq, hform, hrmax, hlmax⟩ :=
    scan_spec text.data.length text.data le_rfl w hw
  rw [Bool.and_eq_true, decide_eq_true_eq, Bool.not_eq_true'] at hcond
  refine ⟨?_, hcond.1, ?_, pre, w, post, heq, hform, hrmax, hlmax, rfl⟩
  · intro c hc
    have hc' : c ∈ w.map Char.toLower := mem_stripBoth hc
    rcases List.mem_map.mp hc' with ⟨c₀, _, rfl⟩
    exact isUpper_toLower c₀
  · intro hmem2
    have := List.elem_eq_true_of_mem hmem2
    rw [List.contains] at hcond
    rw [hcond.2] at this
    exact Bool.false_ne_true this

/-- Witness for C4: on the text `"I like Python3 and C++."` with
stop-word list `["and"]`, the token `"python3"` is produced and the
theorem applies to it. -/
theorem tokenize_simple_spec_witness :
    ("python3" ∈ tokenize_simple ["and"] "I like Python3 and C++.") ∧
    ((∀ c ∈ ("python3" : String).data, c.isUpper = false) ∧
      MIN_LEN ≤ ("python3" : String).length ∧
      ("python3" : String) ∉ (["and"] : List String) ∧
      ∃ pre w post,
        ("I like Python3 and C++." : String).data = pre ++ w ++ post ∧
        (∃ c cs, w = c :: cs ∧ isAsciiLetter c = true ∧
          cs.all isCont = true ∧ 2 ≤ cs.length) ∧
        (∀ d ds, post = d :: ds → isCont d = false) ∧
        (∀ pre₁ d r, pre = pre₁ ++ d :: r → isAsciiLetter d = true →
          r.all isCont = true → False) ∧
        ("python3" : String) =
          String.mk (stripBoth isPuncLike (w.map Char.toLower))) :=
  ⟨by simp +decide [tokenize_simple, scan],
    tokenize_simple_spec ["and"] "I like Python3 and C++." "python3"
      (by simp +decide [tokenize_simple, scan])⟩

/-- C5: `find_phrases` returns exactly the set of matched phrases: a
string is in the result iff it is the lowercased, trimmed form of some
input phrase, is nonempty (whitespace-only phrases are ignored), and
occurs as a substring of the lowercased text. -/
theorem find_phrases_spec (text : String) (phrases : List String)
    (s : String) :
    s ∈ find_phrases text phrases ↔
      (∃ p ∈ phrases, normPhrase p = s) ∧ s ≠ "" ∧
        substrB s (lowerStr text) = true := by
  unfold find_phrases
  rw [mem_find_phrases_foldl]
  simp

/-- C1: `compute_overlap_and_gaps` returns `overlap = A ∩ B` and
`gaps = B − A`; consequently `overlap ∪ gaps = B`,
`overlap ∩ gaps = ∅`, and `overlap ⊆ A`. -/
theorem compute_overlap_and_gaps_spec (A B : Finset String) :
    (compute_overlap_and_gaps A B).1 = A ∩ B ∧
    (compute_overlap_and_gaps A B).2 = B \ A ∧
    (compute_overlap_and_gaps A B).1 ∪ (compute_overlap_and_gaps A B).2 = B ∧
    (compute_overlap_and_gaps A B).1 ∩ (compute_overlap_and_gaps A B).2 = ∅ ∧
    (compute_overlap_and_gaps A B).1 ⊆ A := by
  refine ⟨rfl, rfl, ?_, ?_, Finset.inter_subset_left⟩
  · ext x
    simp only [compute_overlap_and_gaps, Finset.mem_union, Finset.mem_inter,
      Finset.mem_sdiff]
    tauto
  · ext x
    simp only [compute_overlap_and_gaps, Finset.mem_inter, Finset.mem_sdiff,
      Finset.not_mem_empty, iff_false]
    tauto

/-- C2: every triple returned by `score_terms` (at the default bonus 1.5)
has `frequency = ` the term's count in the job-description frequency
table (1 if absent) and `score = frequency × bonus`, with bonus 1.5 iff
the term is in the job-description phrase-hit set, else 1.0. -/
theorem score_terms_score_formula (gaps jd_counts : List String)
    (phrase_hits : Finset String) (t : String) (s : ℚ) (f : Nat)
    (h : (t, s, f) ∈ score_terms gaps jd_counts phrase_hits (3/2)) :
    f = (if t ∈ jd_counts then jd_counts.count t else 1) ∧
    s = (f : ℚ) * (if t ∈ phrase_hits then (3 : ℚ)/2 else 1) := by
  have h' : (t, s, f) ∈ gaps.map (mkScored jd_counts phrase_hits (3/2)) :=
    (List.perm_insertionSort gapLe _).mem_iff.mp h
  rcases List.mem_map.mp h' with ⟨u, _, he⟩
  have ht : u = t := congrArg Prod.fst he
  subst ht
  have hs : (counterGet jd_counts u : ℚ) *
      (if u ∈ phrase_hits then (3 : ℚ)/2 else 1) = s :=
    congrArg (fun p => p.2.1) he
  have hf : counterGet jd_counts u = f := congrArg (fun p => p.2.2) he
  constructor
  · rw [← hf]; rfl
  · rw [← hf, ← hs]

/-- Witness for C2 on a concrete run: `"docker"` occurs twice in the
job description and is a phrase hit, so its score is `2 × 1.5 = 3`. -/
theorem score_terms_score_formula_witness :
    (("docker", (3 : ℚ), 2) ∈
        score_terms ["docker"] ["docker", "docker"] {"docker"} (3/2)) ∧
    ((2 : Nat) = (if "docker" ∈ (["docker", "docker"] : List String) then
        (["docker", "docker"] : List String).count "docker" else 1) ∧
      (3 : ℚ) = ((2 : Nat) : ℚ) *
        (if "docker" ∈ ({"docker"} : Finset String) then (3 : ℚ)/2 else 1)) :=
  ⟨by norm_num [score_terms, List.insertionSort, List.orderedInsert,
      mkScored, counterGet],
    score_terms_score_formula ["docker"] ["docker", "docker"] {"docker"}
      "docker" 3 2
      (by norm_num [score_terms, List.insertionSort, List.orderedInsert,
        mkScored, counterGet])⟩

/-- C3: `score_terms` output is sorted ascending by the key
`(−score, −frequency, term)` — highest score first, ties broken by
higher frequency then lexicographically smaller term — and the result
does not depend on the iteration order of the input gap set. -/
theorem score_terms_sorted_key (gaps gaps' jd_counts : List String)
    (phrase_hits : Finset String) (phrase_bonus : ℚ)
    (hperm : gaps.Perm gaps') :
    List.Sorted gapLe (score_terms gaps jd_counts phrase_hits phrase_bonus) ∧
    score_terms gaps jd_counts phrase_hits phrase_bonus =
      score_terms gaps' jd_counts phrase_hits phrase_bonus :=
  ⟨List.sorted_insertionSort _ _,
    score_terms_perm_eq _ _ _ _ _ hperm⟩

/-- Witness for C3: two iteration orders of the gap set
`{"aaa", "bbb"}` produce the same sorted output. -/
theorem score_terms_sorted_key_witness :
    (["aaa", "bbb"] : List String).Perm ["bbb", "aaa"] ∧
    (List.Sorted gapLe (score_terms ["aaa", "bbb"] [] ∅ (3/2)) ∧
      score_terms ["aaa", "bbb"] [] ∅ (3/2) =
        score_terms ["bbb", "aaa"] [] ∅ (3/2)) :=
  ⟨by decide, score_terms_sorted_key _ _ _ _ _ (by decide)⟩

/-- C10: `score_terms` returns exactly one triple per gap term (length
equals the cardinality of the gap set, and the set of first components
is the gap set), and when the phrase-bonus parameter is ≥ 1 every
triple's score is at least its frequency. -/
theorem score_terms_complete (gaps jd_counts : List String)
    (phrase_hits : Finset String) (phrase_bonus : ℚ)
    (hnd : gaps.Nodup) (hb : 1 ≤ phrase_bonus) :
    (score_terms gaps jd_counts phrase_hits phrase_bonus).length =
      gaps.toFinset.card ∧
    ((score_terms gaps jd_counts phrase_hits phrase_bonus).map
        (fun x => x.1)).toFinset = gaps.toFinset ∧
    ∀ x ∈ score_terms gaps jd_counts phrase_hits phrase_bonus,
      (x.2.2 : ℚ) ≤ x.2.1 := by
  unfold score_terms
  refine ⟨?_, ?_, ?_⟩
  · rw [(List.perm_insertionSort gapLe _).length_eq, List.length_map,
      List.toFinset_card_of_nodup hnd]
  · have hp : ((List.insertionSort gapLe
        (gaps.map (mkScored jd_counts phrase_hits phrase_bonus))).map
          (fun x => x.1)).Perm
        ((gaps.map (mkScored jd_counts phrase_hits phrase_bonus)).map
          (fun x => x.1)) :=
      (List.perm_insertionSort gapLe _).map _
    ext a
    simp only [List.mem_toFinset, hp.mem_iff, List.map_map]
    simp [Function.comp, mkScored]
  · intro x hx
    have hx' : x ∈ gaps.map (mkScored jd_counts phrase_hits phrase_bonus) :=
      (List.perm_insertionSort gapLe _).mem_iff.mp hx
    rcases List.mem_map.mp hx' with ⟨u, _, he⟩
    subst he
    simp only [mkScored]
    split
    · exact le_mul_of_one_le_right (by positivity) hb
    · simp

/-- Witness for C10 on a concrete gap set of two terms. -/
theorem score_terms_complete_witness :
    (["rest", "docker"] : List String).Nodup ∧ (1 : ℚ) ≤ 3/2 ∧
    ((score_terms ["rest", "docker"] ["docker"] ∅ (3/2)).length =
        (["rest", "docker"] : List String).toFinset.card ∧
      ((score_terms ["rest", "docker"] ["docker"] ∅ (3/2)).map
          (fun x => x.1)).toFinset =
        (["rest", "docker"] : List String).toFinset ∧
      ∀ x ∈ score_terms ["rest", "docker"] ["docker"] ∅ (3/2),
        (x.2.2 : ℚ) ≤ x.2.1) :=
  ⟨by decide, by norm_num,
    score_terms_complete _ _ _ _ (by decide) (by norm_num)⟩

/-- C6: the displayed gap and overlap lists are the `top`-prefixes of
the fully sorted lists (length `min top full-length`), while the HTML
report and the bullet suggestions receive the untruncated scored list. -/
theorem pipeline_truncation (cv_text jd_text : String)
    (stop phrases : List String) (top : Nat) :
    (pipeline cv_text jd_text stop phrases top).gaps_scored =
      (pipeline cv_text jd_text stop phrases top).gaps_scored_all.take top ∧
    (pipeline cv_text jd_text stop phrases top).gaps_scored.length =
      min top (pipeline cv_text jd_text stop phrases top).gaps_scored_all.length ∧
    (∃ rest, (pipeline cv_text jd_text stop phrases top).gaps_scored_all =
      (pipeline cv_text jd_text stop phrases top).gaps_scored ++ rest) ∧
    (pipeline cv_text jd_text stop phrases top).overlap_sorted_top =
      (pipeline cv_text jd_text stop phrases top).overlap_sorted.take top ∧
    (pipeline cv_text jd_text stop phrases top).overlap_sorted_top.length =
      min top (pipeline cv_text jd_text stop phrases top).overlap_sorted.length ∧
    (∃ rest, (pipeline cv_text jd_text stop phrases top).overlap_sorted =
      (pipeline cv_text jd_text stop phrases top).overlap_sorted_top ++ rest) ∧
    (pipeline cv_text jd_text stop phrases top).html_gaps =
      (pipeline cv_text jd_text stop phrases top).gaps_scored_all ∧
    (pipeline cv_text jd_text stop phrases top).html_overlap =
      (pipeline cv_text jd_text stop phrases top).overlap_sorted ∧
    (pipeline cv_text jd_text stop phrases top).bullets_input =
      (pipeline cv_text jd_text stop phrases top).gaps_scored_all.map (fun x => x.1) ∧
    (pipeline cv_text jd_text stop phrases top).bullets =
      suggest_bullets
        ((pipeline cv_text jd_text stop phrases top).gaps_scored_all.map
          (fun x => x.1)) 10 :=
  ⟨rfl, List.length_take _ _, ⟨_, (List.take_append_drop top _).symm⟩,
    rfl, List.length_take _ _, ⟨_, (List.take_append_drop top _).symm⟩,
    rfl, rfl, rfl, rfl⟩

/-- C7: the overlap list prepared for display pairs each overlap term
with its job-description frequency and is sorted ascending by the key
`(−jd_frequency, term)`: higher job-description frequency first, ties
broken lexicographically by term. -/
theorem pipeline_overlap_display (cv_text jd_text : String)
    (stop phrases : List String) (top : Nat) :
    List.Sorted ovLe (pipeline cv_text jd_text stop phrases top).overlap_sorted ∧
    (pipeline cv_text jd_text stop phrases top).overlap_sorted.Perm
      ((overlapIter (extract_terms stop cv_text) (extract_terms stop jd_text)).map
        (fun t => (t, (extract_terms stop jd_text).count t))) ∧
    ((pipeline cv_text jd_text stop phrases top).overlap_sorted.map
        (fun x => x.1)).toFinset =
      (pipeline cv_text jd_text stop phrases top).overlap ∧
    ∀ x ∈ (pipeline cv_text jd_text stop phrases top).overlap_sorted,
      x.2 = (extract_terms stop jd_text).count x.1 := by
  refine ⟨List.sorted_insertionSort _ _, List.perm_insertionSort _ _, ?_, ?_⟩
  · ext a
    have hp : ((pipeline cv_text jd_text stop phrases top).overlap_sorted.map
        (fun x => x.1)).Perm
        (((overlapIter (extract_terms stop cv_text)
            (extract_terms stop jd_text)).map
          (fun t => (t, (extract_terms stop jd_text).count t))).map
            (fun x => x.1)) :=
      (List.perm_insertionSort ovLe _).map _
    simp only [List.mem_toFinset, hp.mem_iff, List.map_map]
    show (a ∈ (overlapIter (extract_terms stop cv_text)
        (extract_terms stop jd_text)).map _) ↔
      a ∈ (extract_terms stop cv_text).toFinset ∩
        (extract_terms stop jd_text).toFinset
    simp only [List.mem_map, Function.comp, overlapIter, List.mem_filter,
      List.mem_dedup, Finset.mem_inter, List.mem_toFinset, decide_eq_true_eq]
    constructor
    · rintro ⟨u, ⟨hj, hc⟩, rfl⟩
      exact ⟨hc, hj⟩
    · rintro ⟨hc, hj⟩
      exact ⟨a, ⟨hj, hc⟩, rfl⟩
  · intro x hx
    have hx' : x ∈ (overlapIter (extract_terms stop cv_text)
        (extract_terms stop jd_text)).map
          (fun t => (t, (extract_terms stop jd_text).count t)) :=
      (List.perm_insertionSort ovLe _).mem_iff.mp hx
    rcases List.mem_map.mp hx' with ⟨u, _, he⟩
    subst he
    rfl

/-- C9: the scored-gap ordering and the overlap ordering produced by the
pipeline are deterministic functions of the inputs: whatever iteration
order the term sets are traversed in, the sorted lists equal the ones
`pipeline` produces, so two runs on identical inputs agree. -/
theorem pipeline_deterministic (cv_text jd_text : String)
    (stop phrases : List String) (top : Nat) (gl ol : List String)
    (hg : gl.Perm (gapsIter (extract_terms stop cv_text)
      (extract_terms stop jd_text)))
    (ho : ol.Perm (overlapIter (extract_terms stop cv_text)
      (extract_terms stop jd_text))) :
    score_terms gl (extract_terms stop jd_text)
        (find_phrases jd_text phrases) (3/2) =
      (pipeline cv_text jd_text stop phrases top).gaps_scored_all ∧
    sort_overlap ol (extract_terms stop jd_text) =
      (pipeline cv_text jd_text stop phrases top).overlap_sorted :=
  ⟨score_terms_perm_eq _ _ _ _ _ hg, sort_overlap_perm_eq _ _ _ ho⟩

/-- Witness for C9 at empty inputs, where both iteration orders are
forced to be empty. -/
theorem pipeline_deterministic_witness :
    ([] : List String).Perm (gapsIter (extract_terms [] "")
      (extract_terms [] "")) ∧
    ([] : List String).Perm (overlapIter (extract_terms [] "")
      (extract_terms [] "")) ∧
    (score_terms [] (extract_terms [] "") (find_phrases "" []) (3/2) =
        (pipeline "" "" [] [] 0).gaps_scored_all ∧
      sort_overlap [] (extract_terms [] "") =
        (pipeline "" "" [] [] 0).overlap_sorted) :=
  ⟨by simp +decide [gapsIter, extract_terms, tokenize_simple, scan],
    by simp +decide [overlapIter, extract_terms, tokenize_simple, scan],
    pipeline_deterministic "" "" [] [] 0 [] []
      (by simp +decide [gapsIter, extract_terms, tokenize_simple, scan])
      (by simp +decide [overlapIter, extract_terms, tokenize_simple, scan])⟩

/-- C8: the suggestion generator emits one sentence per term for the
first `min max length` terms, in input order, the i-th bullet being the
`(i mod 4)`-th of the four fixed templates applied to the i-th term;
the whole computation is a pure function with no carried state. -/
theorem suggest_bullets_spec (missing : List String) (maxB i : Nat) :
    (suggest_bullets missing maxB).length = min maxB missing.length ∧
    (suggest_bullets missing maxB)[i]? =
      ((missing.take maxB)[i]?).map (applyTemplate (i % 4)) := by
  constructor
  · rw [suggest_bullets, bulletsAux_length, List.length_take]
  · simpa using bulletsAux_getElem? (missing.take maxB) 0 i

end CVMatch
